import Mathlib

/-!
Verification of the latent-codec core of the Paradox network application.

The TypeScript sources `src/lib/latent-encoder.ts`, `src/lib/latent-decoder.ts`,
`src/lib/performance-monitor.ts` and the message service (LRU cache, send/fetch
pipelines) are shallowly embedded below.  JavaScript numbers are modelled by
`ℚ` (exact rational arithmetic standing in for IEEE doubles), JavaScript 32-bit
bitwise coercions by an explicit `toInt32`, strings by their lists of UTF-16
code units, and byte arrays by `List Nat`.  Platform primitives that the code
delegates to the runtime (`Math.sqrt`, `TextDecoder.decode`, float64 rounding
of oversized integer products) are collected in a `Platform` record, and the
lazily loaded TFLite model handles are modelled as optional, possibly failing
functions; every theorem below is proved for an arbitrary platform and
arbitrary model behaviour unless it deliberately instantiates them.
-/

set_option allowUnsafeReducibility true in
attribute [semireducible] Rat.add Rat.mul Rat.sub Rat.inv Rat.ofScientific Rat.div

set_option maxRecDepth 200000

deriving instance DecidableEq for Except

namespace Paradox

/-- JavaScript `ToInt32` coercion, applied by the `&` and `<<` operators. -/
def toInt32 (n : Int) : Int := (n + 2 ^ 31) % 2 ^ 32 - 2 ^ 31

/-- JavaScript `ToUint8` coercion, applied when storing into a `Uint8Array`. -/
def toUint8 (n : Int) : Nat := (n % 256).toNat

/-- JavaScript `Math.round` (round half toward positive infinity). -/
def jsRound (q : ℚ) : Int := ⌊q + 0.5⌋

/-- Platform primitives the TypeScript code delegates to the JS runtime. -/
structure Platform where
  /-- `Math.sqrt`, used by `normalizeVector` and `fallbackDecodeText`. -/
  sqrtQ : ℚ → ℚ
  /-- `new TextDecoder().decode`, used when a byte payload is encoded as text. -/
  utf8DecodeUnits : List Nat → List Nat
  /-- rounding of an exact integer to the nearest float64, relevant only to
  the linear-congruential step of `fallbackDecodeChunk` whose products exceed
  2^53. -/
  f64 : Int → Int

/-- UTF-8 bytes of a single code unit outside a surrogate pair (an unpaired
surrogate becomes U+FFFD), as performed by `new TextEncoder().encode`. -/
def utf8EncodeUnit (u : Nat) : List Nat :=
  if u < 0x80 then [u]
  else if u < 0x800 then [0xC0 + u / 64, 0x80 + u % 64]
  else if 0xD800 ≤ u ∧ u ≤ 0xDFFF then [0xEF, 0xBF, 0xBD]
  else [0xE0 + u / 0x1000, 0x80 + u / 64 % 64, 0x80 + u % 64]

/-- UTF-8 encoding of a list of UTF-16 code units, as performed by
`new TextEncoder().encode` (surrogate pairs encode their code point). -/
def utf8Encode : List Nat → List Nat
  | [] => []
  | [u] => utf8EncodeUnit u
  | u :: v :: rest =>
    if 0xD800 ≤ u ∧ u ≤ 0xDBFF ∧ 0xDC00 ≤ v ∧ v ≤ 0xDFFF then
      let cp := 0x10000 + (u - 0xD800) * 0x400 + (v - 0xDC00)
      (0xF0 + cp / 0x40000) :: (0x80 + cp / 0x1000 % 64) :: (0x80 + cp / 64 % 64) ::
        (0x80 + cp % 64) :: utf8Encode rest
    else utf8EncodeUnit u ++ utf8Encode (v :: rest)

/-- Byte length of the UTF-8 encoding of a string,
`new TextEncoder().encode(text).length`. -/
def utf8Length (units : List Nat) : Nat := (utf8Encode units).length

/-- Code units of an ASCII Lean string literal, for concrete instances. -/
def stringUnits (s : String) : List Nat := s.toList.map Char.toNat

/-- The payload kinds of `latent-encoder.ts` (`DataType`). -/
inductive DataType
  | text
  | image
  | audio
  | video
  | file
deriving DecidableEq

/-- A lazily loaded TFLite model handle: `model.run` may fail. -/
def ModelFn : Type := List ℚ → Except Unit (List ℚ)

/-- The module-level encoder model handles of `latent-encoder.ts`, in the
state they have after the lazy `initModels` attempt of the call at hand. -/
structure EncoderModels where
  textEncoderModel : Option ModelFn
  imageEncoderModel : Option ModelFn

/-- `EncodedData` of `latent-encoder.ts` (the `EncodedPayload` of the spec).
Of the ad-hoc `metadata` object only the one field the codec ever reads back,
`keyframesPerSecond`, is modelled. -/
structure EncodedData where
  type : DataType
  latentVectors : List (List ℚ)
  originalSize : Nat
  encodedSize : Nat
  compressionRatio : ℚ
  metadata : Option ℚ
deriving DecidableEq

/-- `LATENT_DIM` of `latent-encoder.ts` and `latent-decoder.ts`. -/
def LATENT_DIM : Nat := 512

/-- `tokenizeText`: character-based tokenisation into the CLIP vocab range. -/
def tokenizeText (text : List Nat) : List Nat := text.map (fun c => c % 50000)

/-- The `Float32Array(77)` CLIP text input: the first `min(tokens.length, 77)`
slots carry the tokens, the rest stay zero. -/
def clipTextInput (tokens : List Nat) : List ℚ :=
  (List.range 77).map (fun i => ((tokens.getD i 0 : Nat) : ℚ))

/-- `preprocessImageForCLIP`: bytes scaled to `[0,1]`, padded to 224·224·3. -/
def preprocessImageForCLIP (bytes : List Nat) : List ℚ :=
  (List.range (224 * 224 * 3)).map (fun i =>
    match bytes.get? i with
    | some b => (b : ℚ) / 255
    | none => 0)

/-- One step of the JS string-hash loop
`hash = ((hash << 5) - hash) + c; hash = hash & hash`. -/
def jsHashStep (h : Int) (c : Int) : Int := toInt32 (toInt32 (h * 32) - h + c)

/-- `hashToDouble`: `(Math.abs(hash) % 1000000) / 1000000`. -/
def hashToDouble (h : Int) : ℚ := ((h.natAbs % 1000000 : Nat) : ℚ) / 1000000

/-- `normalizeVector`: L2-normalise, returning the vector unchanged when the
norm is zero.  `Math.sqrt` is the platform primitive `plat.sqrtQ`. -/
def normalizeVector (plat : Platform) (vector : List ℚ) : List ℚ :=
  let sumSquares := vector.foldl (fun acc v => acc + v * v) 0
  let norm := plat.sqrtQ sumSquares
  if norm = 0 then vector else vector.map (fun v => v / norm)

/-- `fallbackEncodeText`: deterministic hash-seeded pseudo-vector for text. -/
def fallbackEncodeText (plat : Platform) (text : List Nat) : List ℚ :=
  let hash := text.foldl (fun h c => jsHashStep h (c : Int)) 0
  normalizeVector plat
    ((List.range LATENT_DIM).map (fun (i : Nat) => hashToDouble (hash + (i : Int)) * 2 - 1))

/-- `fallbackEncodeImage`: the same construction over raw bytes. -/
def fallbackEncodeImage (plat : Platform) (bytes : List Nat) : List ℚ :=
  let hash := bytes.foldl (fun h b => jsHashStep h (b : Int)) 0
  normalizeVector plat
    ((List.range LATENT_DIM).map (fun (i : Nat) => hashToDouble (hash + (i : Int)) * 2 - 1))

/-- `fallbackEncodeChunk`: hashes the rounded rescaled chunk samples. -/
def fallbackEncodeChunk (plat : Platform) (chunk : List ℚ) : List ℚ :=
  let hash := chunk.foldl (fun h v => jsHashStep h (jsRound (v * 255))) 0
  normalizeVector plat
    ((List.range LATENT_DIM).map (fun (i : Nat) => hashToDouble (hash + (i : Int)) * 2 - 1))

/-- `encodeTextWithCLIP`: model path with transparent fallback on failure. -/
def encodeTextWithCLIP (plat : Platform) (models : EncoderModels)
    (text : List Nat) : List ℚ :=
  match models.textEncoderModel with
  | some run =>
    match run (clipTextInput (tokenizeText text)) with
    | .ok vector => vector
    | .error _ => fallbackEncodeText plat text
  | none => fallbackEncodeText plat text

/-- `encodeImageWithCLIP`: model path with transparent fallback on failure. -/
def encodeImageWithCLIP (plat : Platform) (models : EncoderModels)
    (bytes : List Nat) : List ℚ :=
  match models.imageEncoderModel with
  | some run =>
    match run (preprocessImageForCLIP bytes) with
    | .ok vector => vector
    | .error _ => fallbackEncodeImage plat bytes
  | none => fallbackEncodeImage plat bytes

/-- `extractKeyframes`: the placeholder implementation ignores the rate and
returns the whole video as a single frame. -/
def extractKeyframes (videoBytes : List Nat) (_fps : ℚ) : List (List Nat) :=
  [videoBytes]

/-- `encodeVideoAsKeyframes`: encode each extracted keyframe as an image. -/
def encodeVideoAsKeyframes (plat : Platform) (models : EncoderModels)
    (videoBytes : List Nat) (fps : ℚ) : List (List ℚ) :=
  (extractKeyframes videoBytes fps).map (encodeImageWithCLIP plat models)

/-- `audioToSpectrogram`: placeholder, returns the waveform bytes unchanged. -/
def audioToSpectrogram (audioBytes : List Nat) : List Nat := audioBytes

/-- `chunkBytes`: fixed-size chunks of `[0,1]`-scaled samples, zero padded;
the loop advances by `chunkSize` while the index is below the byte length,
producing `⌈length / chunkSize⌉` chunks. -/
def chunkBytes (bytes : List Nat) (chunkSize : Nat) : List (List ℚ) :=
  (List.range ((bytes.length + chunkSize - 1) / chunkSize)).map (fun ci =>
    (List.range chunkSize).map (fun j =>
      match bytes.get? (ci * chunkSize + j) with
      | some b => (b : ℚ) / 255
      | none => 0))

/-- The `string | Uint8Array | ArrayBuffer` argument of `encodeData`: either a
string (list of UTF-16 code units) or a byte array. -/
inductive EncodeInput
  | str (units : List Nat)
  | bin (bytes : List Nat)

/-- Bytes of an input as the non-text branches of `encodeData` obtain them
(a string is passed through `TextEncoder`). -/
def bytesOfInput (input : EncodeInput) : List Nat :=
  match input with
  | .str units => utf8Encode units
  | .bin bytes => bytes

/-- Text of an input as the text branch of `encodeData` obtains it
(bytes are passed through `TextDecoder`). -/
def textOfInput (plat : Platform) (input : EncodeInput) : List Nat :=
  match input with
  | .str units => units
  | .bin bytes => plat.utf8DecodeUnits bytes

/-- `metadata?.keyframesPerSecond || 1`: absent or falsy (0) becomes 1. -/
def keyframeRate (md : Option ℚ) : ℚ :=
  match md with
  | some q => if q = 0 then 1 else q
  | none => 1

/-- `encodeData` of `latent-encoder.ts`: per-kind vector production followed by
the uniform size/ratio assembly of lines 205-227. -/
def encodeData (plat : Platform) (models : EncoderModels) (input : EncodeInput)
    (ty : DataType) (md : Option ℚ) : EncodedData :=
  let p : Nat × List (List ℚ) :=
    match ty with
    | .text =>
      let text := textOfInput plat input
      (utf8Length text, [encodeTextWithCLIP plat models text])
    | .image =>
      let bytes := bytesOfInput input
      (bytes.length, [encodeImageWithCLIP plat models bytes])
    | .video =>
      let bytes := bytesOfInput input
      (bytes.length, encodeVideoAsKeyframes plat models bytes (keyframeRate md))
    | .audio =>
      let bytes := bytesOfInput input
      (bytes.length, [encodeImageWithCLIP plat models (audioToSpectrogram bytes)])
    | .file =>
      let bytes := bytesOfInput input
      (bytes.length, (chunkBytes bytes 2048).map (fallbackEncodeChunk plat))
  let originalSize := p.1
  let latentVectors := p.2
  let encodedSize := latentVectors.length * LATENT_DIM * 4
  let compressionRatio := (originalSize : ℚ) / (encodedSize : ℚ)
  { type := ty
    latentVectors := latentVectors
    originalSize := originalSize
    encodedSize := encodedSize
    compressionRatio := compressionRatio
    metadata := md }

/-- The module-level decoder model handles of `latent-decoder.ts`, in the
state they have after the lazy `initDecoder` attempt of the call at hand. -/
structure DecoderModels where
  textDecoderModel : Option ModelFn
  imageDecoderModel : Option ModelFn

/-- The `string | Uint8Array` content of a `DecodedData`. -/
inductive DecContent
  | str (units : List Nat)
  | bin (bytes : List Nat)
deriving DecidableEq

/-- `DecodedData` of `latent-decoder.ts` (the `DecodedPayload` of the spec). -/
structure DecodedData where
  type : DataType
  data : DecContent
  originalSize : Nat
  quality : ℚ
deriving DecidableEq

/-- `detokenizeText`: stop at token 0, keep printable ASCII characters
(`String.fromCharCode` applies `ToUint16`, JS `%` truncates toward zero),
default placeholder when nothing printable survives. -/
def detokenizeText (tokens : List ℚ) : List Nat :=
  let chars := (tokens.takeWhile (fun t => decide (t ≠ 0))).filterMap (fun t =>
    let code := ((jsRound t).tmod 128) % 65536
    if 0x20 ≤ code ∧ code ≤ 0x7E then some code.toNat else none)
  if chars = [] then stringUnits "[Decoded text]" else chars

/-- `postprocessImageFromCLIP`: clamp to `[0,1]`, rescale to bytes. -/
def postprocessImageFromCLIP (imageData : List ℚ) : List Nat :=
  imageData.map (fun v => toUint8 (jsRound (max 0 (min 1 v) * 255)))

/-- `reconstructVideo`: placeholder, returns the first frame (or no bytes). -/
def reconstructVideo (frames : List (List Nat)) (_fps : ℚ) : List Nat :=
  frames.headD []

/-- `spectrogramToAudio`: placeholder, returns the spectrogram unchanged. -/
def spectrogramToAudio (spectrogram : List Nat) : List Nat := spectrogram

/-- `chunksToBytes`: concatenate the rescaled chunk samples and truncate or
zero-pad to `originalSize` (the target `Uint8Array` is zero-initialised). -/
def chunksToBytes (chunks : List (List ℚ)) (originalSize : Nat) : List Nat :=
  let flat := chunks.flatten.map (fun v => toUint8 (jsRound (v * 255)))
  (List.range originalSize).map (fun i => flat.getD i 0)

/-- `fallbackDecodeText`: classify the vector by magnitude and mean.  For the
empty vector both folds give 0 and `0 / 0 = 0` in `ℚ` while JS computes `NaN`;
either way both guards fail and the neutral branch is taken. -/
def fallbackDecodeText (plat : Platform) (vector : List ℚ) : List Nat :=
  let magnitude := plat.sqrtQ (vector.foldl (fun sum v => sum + v * v) 0)
  let avgValue := (vector.foldl (fun sum v => sum + v) 0) / (vector.length : ℚ)
  if 0.5 < magnitude ∧ 0 < avgValue then
    stringUnits "[Positive message - Fallback decoder]"
  else if 0.5 < magnitude ∧ avgValue < 0 then
    stringUnits "[Negative message - Fallback decoder]"
  else stringUnits "[Neutral message - Fallback decoder]"

/-- `fallbackDecodeImage`: fill a 224·224·3 buffer with one colour taken from
the first three components (`Uint8Array` stores `NaN` from a missing
component as 0). -/
def fallbackDecodeImage (vector : List ℚ) : List Nat :=
  let comp := fun (i : Nat) =>
    match vector.get? i with
    | some v => toUint8 (jsRound ((v + 1) / 2 * 255))
    | none => 0
  (List.range (224 * 224 * 3)).map (fun i =>
    if i % 3 = 0 then comp 0 else if i % 3 = 1 then comp 1 else comp 2)

/-- The linear-congruential sample stream of `fallbackDecodeChunk`; the
multiplication runs in float64 before `ToInt32`-style masking, hence the
`plat.f64` rounding step. -/
def lcgSamples (plat : Platform) (seed : Int) : Nat → List ℚ
  | 0 => []
  | n + 1 =>
    let seed1 := (plat.f64 (seed * 1103515245 + 12345)) % 2 ^ 31
    ((seed1 % 256 : Int) : ℚ) / 255 :: lcgSamples plat seed1 n

/-- `fallbackDecodeChunk`: seed from the vector, then 2048 LCG samples. -/
def fallbackDecodeChunk (plat : Platform) (vector : List ℚ) : List ℚ :=
  let seed := vector.foldl (fun s v => s + jsRound (v * 1000)) (0 : Int)
  lcgSamples plat seed 2048

/-- `decodeTextWithCLIP`.  The argument is `encoded.latentVectors[0]`, which
can be `undefined` (`none`): `new Float32Array(undefined)` is an empty input
for the model path, while `fallbackDecodeText(undefined)` throws a
`TypeError`. -/
def decodeTextWithCLIP (plat : Platform) (models : DecoderModels)
    (vector? : Option (List ℚ)) : Except String (List Nat) :=
  match models.textDecoderModel with
  | some run =>
    match run (vector?.getD []) with
    | .ok output => .ok (detokenizeText output)
    | .error _ =>
      match vector? with
      | some vector => .ok (fallbackDecodeText plat vector)
      | none => .error "TypeError"
  | none =>
    match vector? with
    | some vector => .ok (fallbackDecodeText plat vector)
    | none => .error "TypeError"

/-- `decodeImageWithCLIP`, same shape as the text path
(`fallbackDecodeImage(undefined)` throws on its first element access). -/
def decodeImageWithCLIP (_plat : Platform) (models : DecoderModels)
    (vector? : Option (List ℚ)) : Except String (List Nat) :=
  match models.imageDecoderModel with
  | some run =>
    match run (vector?.getD []) with
    | .ok output => .ok (postprocessImageFromCLIP output)
    | .error _ =>
      match vector? with
      | some vector => .ok (fallbackDecodeImage vector)
      | none => .error "TypeError"
  | none =>
    match vector? with
    | some vector => .ok (fallbackDecodeImage vector)
    | none => .error "TypeError"

/-- `decodeVideoFromKeyframes`: decode every keyframe (a `Promise.all`, so the
first failure rejects the lot), then reconstruct. -/
def decodeVideoFromKeyframes (plat : Platform) (models : DecoderModels)
    (vectors : List (List ℚ)) (md : Option ℚ) : Except String (List Nat) :=
  match vectors.mapM (fun v => decodeImageWithCLIP plat models (some v)) with
  | .error e => .error e
  | .ok frames => .ok (reconstructVideo frames (keyframeRate md))

/-- `decodeData` of `latent-decoder.ts`: dispatch on the payload kind; the
quality constant is chosen by whether the relevant model handle is loaded. -/
def decodeData (plat : Platform) (models : DecoderModels)
    (encoded : EncodedData) : Except String DecodedData :=
  match encoded.type with
  | .text =>
    match decodeTextWithCLIP plat models encoded.latentVectors.head? with
    | .error e => .error e
    | .ok s =>
      .ok ⟨.text, .str s, encoded.originalSize,
        if models.textDecoderModel.isSome then 0.95 else 0.70⟩
  | .image =>
    match decodeImageWithCLIP plat models encoded.latentVectors.head? with
    | .error e => .error e
    | .ok bytes =>
      .ok ⟨.image, .bin bytes, encoded.originalSize,
        if models.imageDecoderModel.isSome then 0.90 else 0.65⟩
  | .video =>
    match decodeVideoFromKeyframes plat models encoded.latentVectors
        encoded.metadata with
    | .error e => .error e
    | .ok bytes =>
      .ok ⟨.video, .bin bytes, encoded.originalSize,
        if models.imageDecoderModel.isSome then 0.85 else 0.60⟩
  | .audio =>
    match decodeImageWithCLIP plat models encoded.latentVectors.head? with
    | .error e => .error e
    | .ok spectrogram =>
      .ok ⟨.audio, .bin (spectrogramToAudio spectrogram), encoded.originalSize,
        if models.imageDecoderModel.isSome then 0.75 else 0.50⟩
  | .file =>
    let chunks := encoded.latentVectors.map (fallbackDecodeChunk plat)
    .ok ⟨.file, .bin (chunksToBytes chunks encoded.originalSize),
      encoded.originalSize, 0.70⟩

/-- `compareVectors`: cosine similarity, 0 on length mismatch or zero norm. -/
def compareVectors (plat : Platform) (vector1 vector2 : List ℚ) : ℚ :=
  if vector1.length ≠ vector2.length then 0
  else
    let dotProduct := (vector1.zip vector2).foldl (fun s p => s + p.1 * p.2) 0
    let mag1 := plat.sqrtQ (vector1.foldl (fun s v => s + v * v) 0)
    let mag2 := plat.sqrtQ (vector2.foldl (fun s v => s + v * v) 0)
    if mag1 = 0 ∨ mag2 = 0 then 0 else dotProduct / (mag1 * mag2)

/-- A JS `Map` is modelled as its entry list in iteration (= insertion) order:
the head is the oldest entry, `keys().next().value` is the head key. -/
def mapSet {K V : Type} [DecidableEq K] (m : List (K × V)) (k : K) (v : V) :
    List (K × V) :=
  if m.any (fun p => decide (p.1 = k)) then
    m.map (fun p => if p.1 = k then (k, v) else p)
  else m ++ [(k, v)]

/-- JS `Map.delete`. -/
def mapDelete {K V : Type} [DecidableEq K] (m : List (K × V)) (k : K) :
    List (K × V) :=
  m.filter (fun p => decide (p.1 ≠ k))

/-- JS `Map.get`. -/
def mapFind {K V : Type} [DecidableEq K] (m : List (K × V)) (k : K) : Option V :=
  match m with
  | [] => none
  | (a, b) :: t => if a = k then some b else mapFind t k

/-- The `MessageCache` class of the message service: a bounded map with the
recency discipline of its `get`/`set`/`clear` methods. -/
structure Cache (K V : Type) where
  entries : List (K × V)
  maxSize : Nat
deriving DecidableEq

namespace Cache

variable {K V : Type} [DecidableEq K]

/-- The keys in insertion order. -/
def keys (c : Cache K V) : List K := c.entries.map Prod.fst

/-- `MessageCache.get`: on a hit, delete and re-insert to promote the entry to
most-recently-used; return the value and the updated cache. -/
def get (c : Cache K V) (k : K) : Option V × Cache K V :=
  match mapFind c.entries k with
  | some v => (some v, { c with entries := mapSet (mapDelete c.entries k) k v })
  | none => (none, c)

/-- `MessageCache.set`: when the map is at capacity, delete the first
(oldest) key before inserting. -/
def set (c : Cache K V) (k : K) (v : V) : Cache K V :=
  let afterEvict :=
    if c.maxSize ≤ c.entries.length then
      match c.entries with
      | [] => c.entries
      | (k0, _) :: _ => mapDelete c.entries k0
    else c.entries
  { c with entries := mapSet afterEvict k v }

/-- `MessageCache.clear`. -/
def clear (c : Cache K V) : Cache K V := { c with entries := [] }

/-- Fold a list of insertions through `set`. -/
def setList (c : Cache K V) (kvs : List (K × V)) : Cache K V :=
  kvs.foldl (fun c kv => c.set kv.1 kv.2) c

end Cache

/-- An externally observable cache operation. -/
inductive CacheOp (K V : Type)
  | opGet (k : K)
  | opSet (k : K) (v : V)
  | opClear

/-- Apply one operation. -/
def applyOp {K V : Type} [DecidableEq K] (c : Cache K V) (op : CacheOp K V) :
    Cache K V :=
  match op with
  | .opGet k => (c.get k).2
  | .opSet k v => c.set k v
  | .opClear => c.clear

/-- Apply a sequence of operations. -/
def applyOps {K V : Type} [DecidableEq K] (c : Cache K V)
    (ops : List (CacheOp K V)) : Cache K V :=
  ops.foldl applyOp c

/-- `MessageType` coincides with the codec `DataType`. -/
abbrev MessageType := DataType

/-- `OptimizedMessage` of the message service. -/
structure OptimizedMessage where
  id : Option String
  conversationId : String
  senderId : String
  receiverId : String
  messageType : MessageType
  latentVectors : List (List ℚ)
  originalSize : Nat
  encodedSize : Nat
  compressionRatio : ℚ
  timestamp : Nat
  isRead : Bool
  metadata : Option ℚ
deriving DecidableEq

/-- `DecodedMessage`: an `OptimizedMessage` plus its decoded content. -/
structure DecodedMessage extends OptimizedMessage where
  decodedContent : DecContent
  quality : ℚ
deriving DecidableEq

/-- The decode cache (`new MessageCache()`, `maxSize = 50`). -/
abbrev MsgCache := Cache String DecodedMessage

/-- `maxSize` of `MessageCache`: fixed at 50, independently of any mode. -/
def messageCacheMaxSize : Nat := 50

/-- The freshly constructed message cache. -/
def emptyMessageCache : MsgCache := ⟨[], messageCacheMaxSize⟩

/-- The `EncodedData` that `decodeMessage` rebuilds from a stored message. -/
def encodedOfMessage (m : OptimizedMessage) : EncodedData :=
  { type := m.messageType
    latentVectors := m.latentVectors
    originalSize := m.originalSize
    encodedSize := m.encodedSize
    compressionRatio := m.compressionRatio
    metadata := m.metadata }

/-- `decodeMessage`: cache lookup, decode on a miss, cache the result.  The
result threads the cache state; a thrown decode error is the `.error` case. -/
def decodeMessage (plat : Platform) (models : DecoderModels) (c : MsgCache)
    (m : OptimizedMessage) : Except String (MsgCache × DecodedMessage) :=
  match m.id with
  | some msgId =>
    match c.get msgId with
    | (some cached, c1) => .ok (c1, cached)
    | (none, c1) =>
      match decodeData plat models (encodedOfMessage m) with
      | .error e => .error e
      | .ok d =>
        let dm : DecodedMessage := { m with decodedContent := d.data, quality := d.quality }
        .ok (c1.set msgId dm, dm)
  | none =>
    match decodeData plat models (encodedOfMessage m) with
    | .error e => .error e
    | .ok d => .ok (c, { m with decodedContent := d.data, quality := d.quality })

/-- Sequential decoding of a list of messages, threading the cache; the first
failure aborts with that error (the determinised behaviour of the
`Promise.all` of one batch). -/
def decodeSeq (plat : Platform) (models : DecoderModels) :
    MsgCache → List OptimizedMessage →
    Except String (MsgCache × List DecodedMessage)
  | c, [] => .ok (c, [])
  | c, m :: rest =>
    match decodeMessage plat models c m with
    | .error e => .error e
    | .ok (c1, d) =>
      match decodeSeq plat models c1 rest with
      | .error e => .error e
      | .ok (c2, ds) => .ok (c2, d :: ds)

/-- The batched decode loop of `fetchConversationMessages` and
`listenToMessages`: slices of size `pl + 1` (the `PARALLEL_LIMIT`, 2 under
low power and 5 otherwise), each batch awaited fully before the next.  The
`fuel` counter bounds the number of loop iterations; the wrapper
`decodeBatched` supplies `msgs.length`, which always suffices. -/
def decodeBatchedAux (plat : Platform) (models : DecoderModels) (pl : Nat) :
    Nat → MsgCache → List OptimizedMessage →
    Except String (MsgCache × List DecodedMessage)
  | _, c, [] => .ok (c, [])
  | 0, c, _ :: _ => .ok (c, [])
  | fuel + 1, c, m :: rest =>
    match decodeSeq plat models c ((m :: rest).take (pl + 1)) with
    | .error e => .error e
    | .ok (c1, ds) =>
      match decodeBatchedAux plat models pl fuel c1 (rest.drop pl) with
      | .error e => .error e
      | .ok (c2, ds2) => .ok (c2, ds ++ ds2)

/-- The batched decode loop at its call sites. -/
def decodeBatched (plat : Platform) (models : DecoderModels) (pl : Nat)
    (c : MsgCache) (msgs : List OptimizedMessage) :
    Except String (MsgCache × List DecodedMessage) :=
  decodeBatchedAux plat models pl msgs.length c msgs

/-- A raw Firestore message document, with the optional legacy fields the
service tolerates (`latentVectors || [latentVector]`,
`compressionRatio || 1`). -/
structure RawDoc where
  id : String
  conversationId : String
  senderId : String
  receiverId : String
  messageType : MessageType
  latentVectors : Option (List (List ℚ))
  latentVector : Option (List ℚ)
  originalSize : Nat
  encodedSize : Nat
  compressionRatio : Option ℚ
  timestamp : Nat
  isRead : Bool
  metadata : Option ℚ
deriving DecidableEq

/-- The raw-document parsing of `fetchConversationMessages` and
`listenToMessages`.  An empty `latentVectors` array is truthy in JS and kept;
a missing one falls back to the legacy single-vector field (a document with
neither yields no usable vector); `compressionRatio || 1` turns a missing or
zero ratio into 1. -/
def rawToMessage (d : RawDoc) : OptimizedMessage :=
  { id := some d.id
    conversationId := d.conversationId
    senderId := d.senderId
    receiverId := d.receiverId
    messageType := d.messageType
    latentVectors :=
      match d.latentVectors with
      | some vs => vs
      | none =>
        match d.latentVector with
        | some v => [v]
        | none => []
    originalSize := d.originalSize
    encodedSize := d.encodedSize
    compressionRatio :=
      match d.compressionRatio with
      | some r => if r = 0 then 1 else r
      | none => 1
    timestamp := d.timestamp
    isRead := d.isRead
    metadata := d.metadata }

/-- `fetchConversationMessages`: the store query result is the `store`
argument (`.error` models a rejected Firestore call).  Any failure anywhere —
store or decode — is caught by the surrounding `try/catch`, which logs and
returns the empty list; on success the batch results are delivered in reverse
(chronological) order. -/
def fetchConversationMessages (plat : Platform) (models : DecoderModels)
    (lowPowerMode : Bool) (c : MsgCache)
    (store : Except String (List RawDoc)) : List DecodedMessage :=
  match store with
  | .error _ => []
  | .ok docs =>
    let rawMessages := docs.map rawToMessage
    let pl := if lowPowerMode then 1 else 4
    match decodeBatched plat models pl c rawMessages with
    | .ok (_, decoded) => decoded.reverse
    | .error _ => []

/-- `sendMessage`: encode, then hand to the store; a store failure is
rethrown unchanged to the caller.  The store write outcome and the wall clock
are inputs of the model. -/
def sendMessage (plat : Platform) (models : EncoderModels)
    (conversationId senderId receiverId : String) (data : EncodeInput)
    (messageType : MessageType) (md : Option ℚ) (now : Nat)
    (storeWrite : Except String String) : Except String OptimizedMessage :=
  let encoded := encodeData plat models data messageType md
  let message : OptimizedMessage :=
    { id := none
      conversationId := conversationId
      senderId := senderId
      receiverId := receiverId
      messageType := messageType
      latentVectors := encoded.latentVectors
      originalSize := encoded.originalSize
      encodedSize := encoded.encodedSize
      compressionRatio := encoded.compressionRatio
      timestamp := now
      isRead := false
      metadata := encoded.metadata }
  match storeWrite with
  | .error e => .error e
  | .ok docId => .ok { message with id := some docId }

/-- `getOptimalChunkSize` of the message service. -/
def getOptimalChunkSize (lowPowerMode : Bool) : Nat :=
  if lowPowerMode then 1024 else 2048

/-- `PerformanceMonitor.shouldEnableLowPower`: background, or low battery
while not charging. -/
def shouldEnableLowPower (appActive : Bool) (isCharging : Bool)
    (batteryLevel : ℚ) : Bool :=
  if ¬ appActive then true
  else if ¬ isCharging ∧ batteryLevel < 0.20 then true
  else false

/-- The image-quality recommendation values. -/
inductive ImageQuality
  | high
  | medium
deriving DecidableEq

/-- The record returned by `getOptimizationRecommendations`. -/
structure OptimizationRecommendations where
  maxCacheSize : Nat
  maxParallelTasks : Nat
  imageQuality : ImageQuality
  chunkSize : Nat
  throttleMs : Nat
deriving DecidableEq

/-- `getOptimizationRecommendations` of `performance-monitor.ts`: the cache
size recommendation is keyed on the memory-constrained check, everything else
on `lowPowerRecommended`. -/
def getOptimizationRecommendations (memoryConstrained : Bool)
    (lowPowerRecommended : Bool) : OptimizationRecommendations :=
  { maxCacheSize := if memoryConstrained then 20 else 50
    maxParallelTasks := if lowPowerRecommended then 2 else 5
    imageQuality := if lowPowerRecommended then .medium else .high
    chunkSize := if lowPowerRecommended then 1024 else 2048
    throttleMs := if lowPowerRecommended then 1000 else 500 }

/-- A concrete platform instance for closed evaluations: `Rat.sqrt` stands in
for `Math.sqrt` (every fact below that is evaluated through it depends only
on `sqrt 0 = 0`), byte payloads decode to the empty string, and integers are
taken as float64-exact. -/
def platDefault : Platform :=
  { sqrtQ := Rat.sqrt
    utf8DecodeUnits := fun _ => []
    f64 := id }

/-- Decoder state with no model loaded (the usual fallback state). -/
def noDecoderModels : DecoderModels := ⟨none, none⟩

/-- Encoder state with no model loaded (the usual fallback state). -/
def noEncoderModels : EncoderModels := ⟨none, none⟩

/-- Decoder state whose text model handle is loaded but whose inference call
fails, driving the call onto the fallback path. -/
def failingTextDecoder : DecoderModels := ⟨some (fun _ => .error ()), none⟩

/-- The all-zero 512-component vector. -/
def zeroVec : List ℚ := List.replicate 512 0

/-- Code units of the neutral fallback decoder message. -/
def neutralUnits : List Nat := stringUnits "[Neutral message - Fallback decoder]"

/-- A fixed decoded message, used as cache payload in concrete scenarios. -/
def dummyMessage : DecodedMessage :=
  { id := none
    conversationId := "c"
    senderId := "s"
    receiverId := "r"
    messageType := .text
    latentVectors := []
    originalSize := 0
    encodedSize := 0
    compressionRatio := 1
    timestamp := 0
    isRead := false
    metadata := none
    decodedContent := .str []
    quality := 0.70 }

/-- Distinct message-id strings for concrete cache scenarios. -/
def natKey (i : Nat) : String := "k" ++ toString i

/-- The per-message decode outcome of a cache miss in `decodeMessage`: the
decoded payload attached to its message. -/
def decodeFresh (plat : Platform) (models : DecoderModels)
    (m : OptimizedMessage) : Except String DecodedMessage :=
  (decodeData plat models (encodedOfMessage m)).map
    (fun d => { m with decodedContent := d.data, quality := d.quality })

/-- The cache state after a fresh decode of `m` was stored (identity when the
message carries no id). -/
def cacheAfter (c : MsgCache) (m : OptimizedMessage) (dm : DecodedMessage) :
    MsgCache :=
  match m.id with
  | some i => c.set i dm
  | none => c

/-- A raw store document that decodes fine on the fallback path (its single
text vector only has 3 components, but the decoder never checks dimensions). -/
def goodDoc : RawDoc :=
  { id := "good"
    conversationId := "conv"
    senderId := "s"
    receiverId := "r"
    messageType := .text
    latentVectors := some [[0, 0, 0]]
    latentVector := none
    originalSize := 3
    encodedSize := 2048
    compressionRatio := some 1
    timestamp := 0
    isRead := false
    metadata := none }

/-- A raw store document whose decode throws: a text record with an empty
vector array, so `latentVectors[0]` is `undefined` and the fallback text
decoder raises a `TypeError`. -/
def badDoc : RawDoc :=
  { id := "bad"
    conversationId := "conv"
    senderId := "s"
    receiverId := "r"
    messageType := .text
    latentVectors := some []
    latentVector := none
    originalSize := 0
    encodedSize := 0
    compressionRatio := some 1
    timestamp := 1
    isRead := false
    metadata := none }

/-- The decoded message `goodDoc` produces on the fallback path. -/
def goodDecoded : DecodedMessage :=
  { rawToMessage goodDoc with
      decodedContent := DecContent.str neutralUnits
      quality := 0.70 }

/- ===================== theorems ===================== -/

/-- Claim C1: for every encode of a payload of any kind, the resulting
payload satisfies `encodedSize = latentVectors.length * 512 * 4` and
`compressionRatio = originalSize / encodedSize` in exact rational
arithmetic, `originalSize` being the payload byte length computed by the
respective branch; concretely, the fallback text encode of `"Hello"` has
`originalSize = 5` and ratio `5 / 2048`. -/
theorem encodeData_size_and_ratio :
    (∀ (plat : Platform) (models : EncoderModels) (input : EncodeInput)
      (ty : DataType) (md : Option ℚ),
      (encodeData plat models input ty md).encodedSize
          = (encodeData plat models input ty md).latentVectors.length * 512 * 4
        ∧ (encodeData plat models input ty md).compressionRatio
          = ((encodeData plat models input ty md).originalSize : ℚ)
            / ((encodeData plat models input ty md).encodedSize : ℚ))
    ∧ (encodeData platDefault noEncoderModels (.str (stringUnits "Hello"))
        .text none).originalSize = 5
    ∧ (encodeData platDefault noEncoderModels (.str (stringUnits "Hello"))
        .text none).compressionRatio = 5 / 2048 := by
  refine ⟨fun plat models input ty md => ⟨rfl, rfl⟩, by decide, by rfl⟩

/-- Claim C3: the fallback encoders are pure total functions: two invocations
on identical input produce identical vectors, and every produced vector has
exactly 512 components. -/
theorem fallback_encode_deterministic_512 :
    ∀ (plat : Platform) (text bytes : List Nat) (chunk : List ℚ),
      (fallbackEncodeText plat text = fallbackEncodeText plat text
        ∧ (fallbackEncodeText plat text).length = 512)
      ∧ (fallbackEncodeImage plat bytes = fallbackEncodeImage plat bytes
        ∧ (fallbackEncodeImage plat bytes).length = 512)
      ∧ (fallbackEncodeChunk plat chunk = fallbackEncodeChunk plat chunk
        ∧ (fallbackEncodeChunk plat chunk).length = 512) := by
  have hnorm : ∀ (plat : Platform) (v : List ℚ),
      (normalizeVector plat v).length = v.length := by
    intro plat v
    unfold normalizeVector
    dsimp only
    split
    · rfl
    · simp
  have hlen : ∀ (plat : Platform) (hash : Int),
      (normalizeVector plat ((List.range LATENT_DIM).map
        (fun (i : Nat) => hashToDouble (hash + (i : Int)) * 2 - 1))).length = 512 := by
    intro plat hash
    rw [hnorm, List.length_map, List.length_range]
    rfl
  intro plat text bytes chunk
  exact ⟨⟨rfl, hlen plat _⟩, ⟨rfl, hlen plat _⟩, ⟨rfl, hlen plat _⟩⟩

/-- Claim C6: the observed `extractKeyframes` is a placeholder that returns
the whole video as one frame, so every video encode yields exactly one latent
vector no matter the duration or the `keyframesPerSecond` metadata — not the
`duration × fps` keyframe vectors the specification describes. -/
theorem encodeData_video_single_vector :
    ∀ (plat : Platform) (models : EncoderModels) (input : EncodeInput)
      (md : Option ℚ),
      (encodeData plat models input .video md).latentVectors.length = 1 := by
  intro plat models input md
  rfl

/-- Claim C4 counterexample: with battery at 15 %, discharging and
foregrounded the monitor recommends low power (conserve), yet the cache-size
recommendation stays 50 when memory is unconstrained — and is 20 in normal
mode when memory is constrained — so the cache capacity is keyed on the
memory check, not the conserve/normal mode; the actual `MessageCache`
capacity is the constant 50 either way. -/
theorem cache_capacity_not_mode_function :
    shouldEnableLowPower true false 0.15 = true
    ∧ (getOptimizationRecommendations false true).maxCacheSize = 50
    ∧ (getOptimizationRecommendations true false).maxCacheSize = 20
    ∧ emptyMessageCache.maxSize = 50 := by
  decide

/-- Claim C4 amended: the `maxCacheSize` recommendation is 20 exactly when
the device is memory constrained and 50 otherwise, independent of the
conserve mode; the conserve mode drives the parallelism, chunk-size and
throttle knobs; and the decoded-message cache itself has the fixed capacity
50 in either mode. -/
theorem cache_capacity_follows_memory_not_mode :
    ∀ (memoryConstrained lowPower : Bool),
      (getOptimizationRecommendations memoryConstrained lowPower).maxCacheSize
          = (if memoryConstrained then 20 else 50)
        ∧ (getOptimizationRecommendations memoryConstrained lowPower).maxParallelTasks
          = (if lowPower then 2 else 5)
        ∧ (getOptimizationRecommendations memoryConstrained lowPower).chunkSize
          = (if lowPower then 1024 else 2048)
        ∧ (getOptimizationRecommendations memoryConstrained lowPower).throttleMs
          = (if lowPower then 1000 else 500)
        ∧ emptyMessageCache.maxSize = 50 := by
  intro memoryConstrained lowPower
  exact ⟨rfl, rfl, rfl, rfl, rfl⟩

/-- Claim C8 counterexample: a failing store fetch is not propagated —
`fetchConversationMessages` catches it and returns the empty list, the very
result an empty conversation produces, so the caller cannot observe the
failure. -/
theorem fetch_swallows_store_error :
    fetchConversationMessages platDefault noDecoderModels false
        emptyMessageCache (.error "StoreUnavailable")
      = fetchConversationMessages platDefault noDecoderModels false
        emptyMessageCache (.ok [])
    ∧ fetchConversationMessages platDefault noDecoderModels false
        emptyMessageCache (.error "StoreUnavailable") = [] := by
  exact ⟨rfl, rfl⟩

/-- Claim C8 amended: `sendMessage` rethrows a store write failure to the
caller unchanged (no retry, no substitution), but `fetchConversationMessages`
catches a store fetch failure and substitutes the empty list. -/
theorem store_error_send_propagates_fetch_swallows :
    ∀ (plat : Platform) (encModels : EncoderModels)
      (decModels : DecoderModels) (conv s r : String) (input : EncodeInput)
      (ty : MessageType) (md : Option ℚ) (now : Nat) (lp : Bool)
      (c : MsgCache) (e : String),
      sendMessage plat encModels conv s r input ty md now (.error e) = .error e
      ∧ fetchConversationMessages plat decModels lp c (.error e) = [] := by
  intro plat encModels decModels conv s r input ty md now lp c e
  exact ⟨rfl, rfl⟩

/-- Folding squares of zeros changes nothing. -/
theorem foldl_add_sq_zero :
    ∀ (n : Nat) (s : ℚ),
      (List.replicate n (0 : ℚ)).foldl (fun sum v => sum + v * v) s = s := by
  intro n
  induction n with
  | zero => intro s; rfl
  | succ k ih => intro s; simpa [List.replicate_succ] using ih s

/-- Folding additions of zeros changes nothing. -/
theorem foldl_add_zero :
    ∀ (n : Nat) (s : ℚ),
      (List.replicate n (0 : ℚ)).foldl (fun sum v => sum + v) s = s := by
  intro n
  induction n with
  | zero => intro s; rfl
  | succ k ih => intro s; simpa [List.replicate_succ] using ih s

/-- A vector with zero square-sum and zero sum falls into the neutral branch
of the fallback text decoder (under the concrete platform, whose square root
of 0 is 0). -/
theorem fallbackDecodeText_neutral (v : List ℚ)
    (hsq : v.foldl (fun sum v => sum + v * v) 0 = 0)
    (hsum : v.foldl (fun sum v => sum + v) 0 = 0) :
    fallbackDecodeText platDefault v = neutralUnits := by
  unfold fallbackDecodeText
  rw [hsq, hsum]
  have h0 : platDefault.sqrtQ 0 = 0 := rfl
  rw [h0]
  norm_num
  rfl

/-- The all-zero 512-vector decodes to the neutral fallback message. -/
theorem fallbackDecodeText_zeroVec :
    fallbackDecodeText platDefault zeroVec = neutralUnits :=
  fallbackDecodeText_neutral zeroVec (foldl_add_sq_zero 512 0)
    (foldl_add_zero 512 0)

/-- The 3-component zero vector decodes to the same neutral message. -/
theorem fallbackDecodeText_shortVec :
    fallbackDecodeText platDefault [0, 0, 0] = neutralUnits :=
  fallbackDecodeText_neutral [0, 0, 0] (by norm_num) (by norm_num)

/-- Unfolding equation for the text branch of `decodeData`: any text record
with at least one vector — of any length — decodes without error, through the
model path when the handle is loaded (falling back if inference fails) and
the fallback path otherwise, with the quality constant chosen by the handle
state alone. -/
theorem decodeData_text_eq (plat : Platform) (models : DecoderModels)
    (v : List ℚ) (rest : List (List ℚ)) (n es : Nat) (cr : ℚ)
    (md : Option ℚ) :
    decodeData plat models ⟨.text, v :: rest, n, es, cr, md⟩
      = .ok ⟨.text, .str (
          match models.textDecoderModel with
          | some run =>
            match run v with
            | .ok out => detokenizeText out
            | .error _ => fallbackDecodeText plat v
          | none => fallbackDecodeText plat v),
          n, if models.textDecoderModel.isSome then 0.95 else 0.70⟩ := by
  cases hm : models.textDecoderModel with
  | none => simp [decodeData, decodeTextWithCLIP, hm]
  | some run =>
    cases hr : run v with
    | ok out => simp [decodeData, decodeTextWithCLIP, hm, hr]
    | error e => simp [decodeData, decodeTextWithCLIP, hm, hr]

/-- Claim C2 counterexample: `decodeData` never validates vector dimension.
Decoding a text record whose single vector has length 3 (≠ 512) yields a
DecodedPayload bit-identical to the decode of a well-formed 512-length
vector — an ordinary fallback result with quality 0.70 — so no explicit
"invalid dimension" / "undecodable" sentinel exists. -/
theorem decode_no_invalid_dimension_sentinel :
    decodeData platDefault noDecoderModels
        ⟨.text, [[0, 0, 0]], 5, 2048, 1, none⟩
      = decodeData platDefault noDecoderModels
        ⟨.text, [zeroVec], 5, 2048, 1, none⟩
    ∧ decodeData platDefault noDecoderModels
        ⟨.text, [[0, 0, 0]], 5, 2048, 1, none⟩
      = .ok ⟨.text, .str neutralUnits, 5, 0.70⟩ := by
  constructor <;>
    simp [decodeData_text_eq, noDecoderModels, fallbackDecodeText_zeroVec,
      fallbackDecodeText_shortVec]

/-- Claim C2 amended: the decoder performs no dimension check at all.  A text
record with at least one vector decodes without throwing, through exactly the
same model/fallback paths whatever the vector length, to an ordinary
DecodedPayload; in particular a malformed vector cannot abort a batch, but no
"invalid dimension" marker is ever produced. -/
theorem decodeData_text_no_dimension_check :
    ∀ (plat : Platform) (models : DecoderModels) (v : List ℚ)
      (rest : List (List ℚ)) (n es : Nat) (cr : ℚ) (md : Option ℚ),
      decodeData plat models ⟨.text, v :: rest, n, es, cr, md⟩
        = .ok ⟨.text, .str (
            match models.textDecoderModel with
            | some run =>
              match run v with
              | .ok out => detokenizeText out
              | .error _ => fallbackDecodeText plat v
            | none => fallbackDecodeText plat v),
            n, if models.textDecoderModel.isSome then 0.95 else 0.70⟩ := by
  intro plat models v rest n es cr md
  exact decodeData_text_eq plat models v rest n es cr md

/-- Claim C9 counterexample: with the text model handle loaded but inference
failing, the fallback path produces the decoded data, yet the reported
quality is 0.95 — the model-path value, not the lower fallback value the same
data receives when the handle is absent.  The quality therefore reflects the
handle state, not which path actually produced the result. -/
theorem quality_reflects_handle_not_path :
    decodeData platDefault failingTextDecoder
        ⟨.text, [zeroVec], 5, 2048, 1, none⟩
      = .ok ⟨.text, .str neutralUnits, 5, 0.95⟩
    ∧ decodeData platDefault noDecoderModels
        ⟨.text, [zeroVec], 5, 2048, 1, none⟩
      = .ok ⟨.text, .str neutralUnits, 5, 0.70⟩ := by
  constructor <;>
    simp [decodeData_text_eq, failingTextDecoder, noDecoderModels,
      fallbackDecodeText_zeroVec]

/-- Claim C9 amended: the text decode quality is a function of whether the
model handle is loaded — 0.95 when loaded (even if inference failed and the
fallback produced the result), 0.70 when not — and the unloaded (always
fallback) quality 0.70 is strictly below 0.95. -/
theorem decode_quality_determined_by_model_handle :
    ∀ (plat : Platform) (models : DecoderModels) (v : List ℚ)
      (rest : List (List ℚ)) (n es : Nat) (cr : ℚ) (md : Option ℚ),
      (decodeData plat models ⟨.text, v :: rest, n, es, cr, md⟩).map
          DecodedData.quality
        = .ok (if models.textDecoderModel.isSome then (0.95 : ℚ) else 0.70)
      ∧ ((0.70 : ℚ) < 0.95) := by
  intro plat models v rest n es cr md
  refine ⟨?_, by norm_num⟩
  rw [decodeData_text_eq]
  rfl

section CacheLemmas

variable {K V : Type} [DecidableEq K]

/-- The `Map.set` presence test coincides with key membership. -/
theorem any_key_iff (m : List (K × V)) (k : K) :
    (m.any fun p => decide (p.1 = k)) = true ↔ k ∈ m.map Prod.fst := by
  rw [List.any_eq_true]
  constructor
  · rintro ⟨p, hpmem, hpk⟩
    exact List.mem_map.2 ⟨p, hpmem, of_decide_eq_true hpk⟩
  · intro h
    rcases List.mem_map.1 h with ⟨p, hpmem, rfl⟩
    exact ⟨p, hpmem, decide_eq_true rfl⟩

/-- `Map.set` on an absent key appends the entry. -/
theorem mapSet_of_not_mem {m : List (K × V)} {k : K} (v : V)
    (h : k ∉ m.map Prod.fst) : mapSet m k v = m ++ [(k, v)] := by
  unfold mapSet
  rw [if_neg (fun hc => h ((any_key_iff m k).1 hc))]

/-- `Map.set` on a present key keeps the key sequence unchanged. -/
theorem mapSet_keys_of_mem {m : List (K × V)} {k : K} (v : V)
    (h : k ∈ m.map Prod.fst) :
    (mapSet m k v).map Prod.fst = m.map Prod.fst := by
  unfold mapSet
  rw [if_pos ((any_key_iff m k).2 h), List.map_map]
  refine List.map_congr_left ?_
  intro p _
  by_cases hp : p.1 = k <;> simp [hp]

/-- The keys of a `Map.delete` are the filtered keys. -/
theorem mapDelete_keys (m : List (K × V)) (k : K) :
    (mapDelete m k).map Prod.fst
      = (m.map Prod.fst).filter (fun a => decide (a ≠ k)) := by
  induction m with
  | nil => rfl
  | cons p t ih =>
    by_cases hp : p.1 = k <;>
      simp [mapDelete, List.filter_cons, hp] at ih ⊢ <;> exact ih

/-- Deleting the head key of a duplicate-free map removes only the head. -/
theorem mapDelete_cons_self (k0 : K) (v0 : V) (t : List (K × V))
    (h : k0 ∉ t.map Prod.fst) : mapDelete ((k0, v0) :: t) k0 = t := by
  unfold mapDelete
  rw [List.filter_cons_of_neg (by simp), List.filter_eq_self.2]
  intro p hp
  simp only [decide_eq_true_eq]
  intro hpk
  exact h (List.mem_map.2 ⟨p, hp, hpk⟩)

/-- `Map.get` misses exactly the absent keys. -/
theorem mapFind_eq_none_iff (m : List (K × V)) (k : K) :
    mapFind m k = none ↔ k ∉ m.map Prod.fst := by
  induction m with
  | nil => simp [mapFind]
  | cons p t ih =>
    obtain ⟨a, b⟩ := p
    by_cases hp : a = k
    · subst hp
      simp [mapFind]
    · rw [show mapFind ((a, b) :: t) k = mapFind t k from by
        simp [mapFind, hp], ih]
      simp only [List.map_cons, List.mem_cons]
      constructor
      · intro h hor
        rcases hor with h1 | h2
        · exact hp h1.symm
        · exact h h2
      · intro h hmem
        exact h (Or.inr hmem)

/-- Removing one occurrence from a duplicate-free list shortens it by one. -/
theorem filter_ne_length_of_nodup {l : List K} {k : K} (hnd : l.Nodup)
    (h : k ∈ l) : (l.filter (fun a => decide (a ≠ k))).length = l.length - 1 := by
  induction l with
  | nil => cases h
  | cons a t ih =>
    rcases List.nodup_cons.1 hnd with ⟨hat, hnt⟩
    by_cases hak : a = k
    · subst hak
      rw [List.filter_cons_of_neg (by simp), List.filter_eq_self.2]
      · simp
      · intro p hp
        simp only [decide_eq_true_eq]
        intro hpk
        exact hat (hpk ▸ hp)
    · have hkt : k ∈ t := by
        rcases List.mem_cons.1 h with h1 | h2
        · exact absurd h1.symm hak
        · exact h2
      have hlen : 0 < t.length := List.length_pos.2 (by rintro rfl; cases hkt)
      rw [List.filter_cons_of_pos (by simpa using hak)]
      simp only [List.length_cons]
      rw [ih hnt hkt]
      omega

/-- `MessageCache.set` below capacity never evicts. -/
theorem cacheSet_not_full {c : Cache K V} {k : K} {v : V}
    (h : ¬ c.maxSize ≤ c.entries.length) :
    (c.set k v).entries = mapSet c.entries k v := by
  unfold Cache.set
  rw [if_neg h]

/-- `MessageCache.set` at capacity first deletes the oldest key. -/
theorem cacheSet_full (C : Nat) (k0 : K) (v0 : V) (t : List (K × V)) (k : K)
    (v : V) (hC : C ≤ t.length + 1)
    (hnd : k0 ∉ t.map Prod.fst) :
    (Cache.set ⟨(k0, v0) :: t, C⟩ k v).entries = mapSet t k v := by
  unfold Cache.set
  rw [if_pos (by simpa using hC)]
  show mapSet (mapDelete ((k0, v0) :: t) k0) k v = mapSet t k v
  rw [mapDelete_cons_self k0 v0 t hnd]

/-- Insertions distribute over list append. -/
theorem setList_append (c : Cache K V) (xs ys : List (K × V)) :
    Cache.setList c (xs ++ ys) = Cache.setList (Cache.setList c xs) ys := by
  unfold Cache.setList
  rw [List.foldl_append]

/-- Filling a cache with fresh distinct keys below capacity appends them in
order, with no eviction. -/
theorem setList_fill :
    ∀ (kvs es : List (K × V)) (C : Nat),
      ((es ++ kvs).map Prod.fst).Nodup →
      es.length + kvs.length ≤ C →
      (Cache.setList ⟨es, C⟩ kvs).entries = es ++ kvs := by
  intro kvs
  induction kvs with
  | nil =>
    intro es C hnd hlen
    simp [Cache.setList]
  | cons kv rest ih =>
    intro es C hnd hlen
    obtain ⟨k, v⟩ := kv
    have hlt : ¬ (C ≤ es.length) := by
      simp only [List.length_cons] at hlen
      omega
    have hknotin : k ∉ es.map Prod.fst := by
      rw [List.map_append, List.nodup_append] at hnd
      intro hmem
      exact hnd.2.2 hmem (by simp)
    have hstep : Cache.setList (⟨es, C⟩ : Cache K V) ((k, v) :: rest)
        = Cache.setList (Cache.set ⟨es, C⟩ k v) rest := rfl
    have hset : (Cache.set (⟨es, C⟩ : Cache K V) k v).entries
        = es ++ [(k, v)] := by
      rw [cacheSet_not_full hlt, mapSet_of_not_mem v hknotin]
    rw [hstep]
    have hmax : (Cache.set (⟨es, C⟩ : Cache K V) k v).maxSize = C := rfl
    have hcache : Cache.set (⟨es, C⟩ : Cache K V) k v
        = ⟨es ++ [(k, v)], C⟩ := by
      cases hc : Cache.set (⟨es, C⟩ : Cache K V) k v with
      | mk e mx =>
        congr 1
        · rw [← hset, hc]
        · rw [← hmax, hc]
    have hlen2 : (es ++ [(k, v)]).length + rest.length ≤ C := by
      simp only [List.length_append, List.length_cons, List.length_nil]
        at hlen ⊢
      omega
    rw [hcache, ih (es ++ [(k, v)]) C
      (by rwa [List.append_cons] at hnd) hlen2, ← List.append_cons]

/-- Reconstituting a cache from its two fields. -/
theorem cache_eq_mk {c : Cache K V} {es : List (K × V)} {C : Nat}
    (h1 : c.entries = es) (h2 : c.maxSize = C) : c = ⟨es, C⟩ := by
  cases c
  cases h1
  cases h2
  rfl

/-- Insertions never change the capacity. -/
theorem setList_maxSize (c : Cache K V) (kvs : List (K × V)) :
    (Cache.setList c kvs).maxSize = c.maxSize := by
  induction kvs generalizing c with
  | nil => rfl
  | cons kv rest ih => exact (ih (c.set kv.1 kv.2)).trans rfl

/-- The LRU scenario on a capacity-`C` cache, from empty: filling it with `C`
distinct keys and inserting one more evicts exactly the first key; a `get` on
the first key beforehand promotes it, and the eviction falls on the second
key instead. -/
theorem lru_scenario (C : Nat) (k0 k1 kn : K) (v0 v1 vn : V)
    (rest : List (K × V)) (hC : C = rest.length + 2)
    (hnd : ((((k0, v0) :: (k1, v1) :: rest) ++ [(kn, vn)]).map
      Prod.fst).Nodup) :
    (Cache.setList ⟨[], C⟩
        (((k0, v0) :: (k1, v1) :: rest) ++ [(kn, vn)])).entries
      = ((k1, v1) :: rest) ++ [(kn, vn)]
    ∧ ((Cache.setList ⟨[], C⟩ ((k0, v0) :: (k1, v1) :: rest)).get k0).1
      = some v0
    ∧ ((((Cache.setList ⟨[], C⟩
          ((k0, v0) :: (k1, v1) :: rest)).get k0).2).set kn vn).entries
      = rest ++ [(k0, v0), (kn, vn)] := by
  set kvs : List (K × V) := (k0, v0) :: (k1, v1) :: rest with hkvs
  have hndsplit : (kvs.map Prod.fst).Nodup ∧ kn ∉ kvs.map Prod.fst := by
    rw [List.map_append, List.nodup_append] at hnd
    exact ⟨hnd.1, fun hm => hnd.2.2 hm (by simp)⟩
  have hk0 : k0 ∉ ((k1, v1) :: rest).map Prod.fst :=
    (List.nodup_cons.1 (by simpa [hkvs] using hndsplit.1)).1
  have hndtail : (((k1, v1) :: rest).map Prod.fst).Nodup :=
    (List.nodup_cons.1 (by simpa [hkvs] using hndsplit.1)).2
  have hk1 : k1 ∉ rest.map Prod.fst := (List.nodup_cons.1 (by
    simpa using hndtail)).1
  have hlenkvs : kvs.length = C := by
    simp [hkvs, List.length_cons, hC]
  have hfill : (Cache.setList (⟨[], C⟩ : Cache K V) kvs).entries = kvs := by
    have := setList_fill kvs [] C (by simpa using hndsplit.1)
      (by simp [hlenkvs])
    simpa using this
  have hfull : Cache.setList (⟨[], C⟩ : Cache K V) kvs = ⟨kvs, C⟩ :=
    cache_eq_mk hfill ((setList_maxSize _ _).trans rfl)
  have hCle : C ≤ ((k1, v1) :: rest).length + 1 := by
    simp [List.length_cons, hC]
  refine ⟨?_, ?_, ?_⟩
  · rw [setList_append, hfull,
      show Cache.setList (⟨kvs, C⟩ : Cache K V) [(kn, vn)]
        = (⟨kvs, C⟩ : Cache K V).set kn vn from rfl, hkvs,
      cacheSet_full C k0 v0 ((k1, v1) :: rest) kn vn hCle hk0,
      mapSet_of_not_mem vn (by
        intro hm
        exact hndsplit.2 (by simpa [hkvs] using Or.inr hm))]
  · rw [hfull]
    unfold Cache.get
    rw [show mapFind kvs k0 = some v0 from by simp [hkvs, mapFind]]
  · rw [hfull]
    unfold Cache.get
    rw [show mapFind kvs k0 = some v0 from by simp [hkvs, mapFind]]
    have hdel : mapDelete kvs k0 = (k1, v1) :: rest := by
      rw [hkvs]
      exact mapDelete_cons_self k0 v0 _ hk0
    have hprom : mapSet (mapDelete kvs k0) k0 v0
        = (k1, v1) :: (rest ++ [(k0, v0)]) := by
      rw [hdel, mapSet_of_not_mem v0 hk0]
      simp
    show ((⟨mapSet (mapDelete kvs k0) k0 v0, C⟩ : Cache K V).set kn vn).entries
      = rest ++ [(k0, v0), (kn, vn)]
    rw [hprom]
    have hCle2 : C ≤ (rest ++ [(k0, v0)]).length + 1 := by
      simp [List.length_append, hC]
    have hk1' : k1 ∉ (rest ++ [(k0, v0)]).map Prod.fst := by
      rw [List.map_append]
      intro hm
      rcases List.mem_append.1 hm with hm | hm
      · exact hk1 hm
      · have : k1 = k0 := by simpa using hm
        exact hk0 (by simp [this])
    rw [cacheSet_full C k1 v1 (rest ++ [(k0, v0)]) kn vn hCle2 hk1',
      mapSet_of_not_mem vn (by
        intro hm
        rw [List.map_append] at hm
        rcases List.mem_append.1 hm with hm | hm
        · exact hndsplit.2 (by simp [hkvs, Or.inr, hm])
        · have : kn = k0 := by simpa using hm
          exact hndsplit.2 (by simp [hkvs, this]))]
    simp

/-- `Map.set` on a present key keeps the length. -/
theorem mapSet_length_of_mem {m : List (K × V)} {k : K} (v : V)
    (h : k ∈ m.map Prod.fst) : (mapSet m k v).length = m.length := by
  have := mapSet_keys_of_mem (m := m) v h
  calc (mapSet m k v).length = ((mapSet m k v).map Prod.fst).length :=
        (List.length_map _ _).symm
    _ = (m.map Prod.fst).length := by rw [this]
    _ = m.length := List.length_map _ _

/-- Deleting a present key from a duplicate-free map drops one entry. -/
theorem mapDelete_length_of_mem {m : List (K × V)} {k : K}
    (hnd : (m.map Prod.fst).Nodup) (h : k ∈ m.map Prod.fst) :
    (mapDelete m k).length = m.length - 1 := by
  calc (mapDelete m k).length = ((mapDelete m k).map Prod.fst).length :=
        (List.length_map _ _).symm
    _ = ((m.map Prod.fst).filter (fun a => decide (a ≠ k))).length := by
        rw [mapDelete_keys]
    _ = (m.map Prod.fst).length - 1 := filter_ne_length_of_nodup hnd h
    _ = m.length - 1 := by rw [List.length_map]

/-- A key is never among the keys remaining after its own deletion. -/
theorem not_mem_mapDelete (m : List (K × V)) (k : K) :
    k ∉ (mapDelete m k).map Prod.fst := by
  rw [mapDelete_keys]
  intro hm
  have := (List.mem_filter.1 hm).2
  simp at this

/-- One cache operation preserves key distinctness, the size bound, and the
capacity. -/
theorem applyOp_preserves (c : Cache K V) (op : CacheOp K V)
    (hpos : 0 < c.maxSize) (hnd : (c.entries.map Prod.fst).Nodup)
    (hlen : c.entries.length ≤ c.maxSize) :
    ((applyOp c op).entries.map Prod.fst).Nodup
    ∧ (applyOp c op).entries.length ≤ c.maxSize
    ∧ (applyOp c op).maxSize = c.maxSize := by
  cases op with
  | opClear =>
    exact ⟨by simp [applyOp, Cache.clear], by simp [applyOp, Cache.clear], rfl⟩
  | opGet k =>
    cases hf : mapFind c.entries k with
    | none =>
      have hsame : applyOp c (.opGet k) = c := by
        show (c.get k).2 = c
        unfold Cache.get
        rw [hf]
      rw [hsame]
      exact ⟨hnd, hlen, rfl⟩
    | some v =>
      have hmem : k ∈ c.entries.map Prod.fst := by
        by_contra hmm
        rw [← mapFind_eq_none_iff] at hmm
        rw [hf] at hmm
        cases hmm
      have hc2 : applyOp c (.opGet k)
          = ⟨mapSet (mapDelete c.entries k) k v, c.maxSize⟩ := by
        show (c.get k).2 = _
        unfold Cache.get
        rw [hf]
      rw [hc2]
      have hkdel := not_mem_mapDelete c.entries k
      have hkeys : (mapSet (mapDelete c.entries k) k v).map Prod.fst
          = (mapDelete c.entries k).map Prod.fst ++ [k] := by
        rw [mapSet_of_not_mem v hkdel, List.map_append]
        rfl
      have hdelnodup : ((mapDelete c.entries k).map Prod.fst).Nodup := by
        rw [mapDelete_keys]
        exact hnd.filter _
      have hpos1 : 1 ≤ c.entries.length := by
        rcases List.mem_map.1 hmem with ⟨p, hp, _⟩
        exact List.length_pos.2 (fun hnil => by rw [hnil] at hp; cases hp)
      refine ⟨?_, ?_, rfl⟩
      · rw [hkeys, List.nodup_append]
        exact ⟨hdelnodup, List.nodup_singleton k,
          fun a ha hb => hkdel ((List.mem_singleton.1 hb) ▸ ha)⟩
      · have : (mapSet (mapDelete c.entries k) k v).length
            = (mapDelete c.entries k).length + 1 := by
          rw [mapSet_of_not_mem v hkdel, List.length_append]
          rfl
        rw [this, mapDelete_length_of_mem hnd hmem]
        omega
  | opSet k v =>
    show ((c.set k v).entries.map Prod.fst).Nodup
      ∧ (c.set k v).entries.length ≤ c.maxSize ∧ (c.set k v).maxSize = c.maxSize
    by_cases hfull : c.maxSize ≤ c.entries.length
    · have hlen' : c.entries.length = c.maxSize := le_antisymm hlen hfull
      obtain ⟨a, b, t, hcons⟩ : ∃ a b t, c.entries = (a, b) :: t := by
        cases hce : c.entries with
        | nil => rw [hce] at hlen'; simp at hlen'; omega
        | cons p t => exact ⟨p.1, p.2, t, rfl⟩
      have hmk : c = ⟨(a, b) :: t, c.maxSize⟩ := cache_eq_mk hcons rfl
      have hndt : ((((a, b) :: t) : List (K × V)).map Prod.fst).Nodup := by
        rw [← hcons]; exact hnd
      have hat : a ∉ t.map Prod.fst := (List.nodup_cons.1 hndt).1
      have htlen : t.length + 1 = c.maxSize := by
        rw [← hlen', hcons]; rfl
      have hset : (c.set k v).entries = mapSet t k v := by
        conv_lhs => rw [hmk]
        exact cacheSet_full c.maxSize a b t k v (by omega) hat
      have hndt2 : (t.map Prod.fst).Nodup := (List.nodup_cons.1 hndt).2
      refine ⟨?_, ?_, rfl⟩ <;> rw [hset]
      · by_cases hkt : k ∈ t.map Prod.fst
        · rw [mapSet_keys_of_mem v hkt]
          exact hndt2
        · rw [mapSet_of_not_mem v hkt, List.map_append, List.nodup_append]
          exact ⟨hndt2, List.nodup_singleton k, fun x hx hy => by
            have hxk : x = k := by simpa using hy
            exact hkt (hxk ▸ hx)⟩
      · by_cases hkt : k ∈ t.map Prod.fst
        · rw [mapSet_length_of_mem v hkt]
          omega
        · rw [mapSet_of_not_mem v hkt, List.length_append]
          simp only [List.length_cons, List.length_nil]
          omega
    · have hset : (c.set k v).entries = mapSet c.entries k v :=
        cacheSet_not_full hfull
      refine ⟨?_, ?_, rfl⟩ <;> rw [hset]
      · by_cases hk : k ∈ c.entries.map Prod.fst
        · rw [mapSet_keys_of_mem v hk]
          exact hnd
        · rw [mapSet_of_not_mem v hk, List.map_append, List.nodup_append]
          exact ⟨hnd, List.nodup_singleton k, fun x hx hy => by
            have hxk : x = k := by simpa using hy
            exact hk (hxk ▸ hx)⟩
      · by_cases hk : k ∈ c.entries.map Prod.fst
        · rw [mapSet_length_of_mem v hk]
          exact hlen
        · rw [mapSet_of_not_mem v hk, List.length_append]
          simp only [List.length_cons, List.length_nil]
          omega

/-- A whole operation sequence preserves key distinctness, the size bound,
and the capacity. -/
theorem applyOps_preserves :
    ∀ (ops : List (CacheOp K V)) (c : Cache K V), 0 < c.maxSize →
      (c.entries.map Prod.fst).Nodup → c.entries.length ≤ c.maxSize →
      ((applyOps c ops).entries.map Prod.fst).Nodup
      ∧ (applyOps c ops).entries.length ≤ c.maxSize
      ∧ (applyOps c ops).maxSize = c.maxSize := by
  intro ops
  induction ops with
  | nil => exact fun c _ hnd hlen => ⟨hnd, hlen, rfl⟩
  | cons op rest ih =>
    intro c hpos hnd hlen
    obtain ⟨h1, h2, h3⟩ := applyOp_preserves c op hpos hnd hlen
    have hstep : applyOps c (op :: rest) = applyOps (applyOp c op) rest := rfl
    obtain ⟨g1, g2, g3⟩ := ih (applyOp c op) (by rw [h3]; exact hpos) h1
      (by rw [h3]; exact h2)
    rw [hstep]
    exact ⟨g1, by rw [← h3]; exact g2, by rw [g3, h3]⟩

/-- The key order produced by one `set` on a duplicate-free cache holding its
key `k`: below capacity nothing moves; at capacity the oldest entry is
deleted first, and when that oldest entry is `k` itself the subsequent insert
re-adds `k` at the most-recently-used end. -/
theorem set_overwrite_keys (c : Cache K V) (k : K) (v : V)
    (hpos : 0 < c.maxSize) (hnd : (c.entries.map Prod.fst).Nodup)
    (hmem : k ∈ c.entries.map Prod.fst) :
    (c.set k v).entries.map Prod.fst
      = if c.maxSize ≤ c.entries.length then
          (c.entries.map Prod.fst).tail
            ++ (if (c.entries.map Prod.fst).head? = some k then [k] else [])
        else c.entries.map Prod.fst := by
  by_cases hfull : c.maxSize ≤ c.entries.length
  · obtain ⟨a, b, t, hcons⟩ : ∃ a b t, c.entries = (a, b) :: t := by
      cases hce : c.entries with
      | nil =>
        rw [hce] at hfull
        simp at hfull
        omega
      | cons p t => exact ⟨p.1, p.2, t, rfl⟩
    have hmk : c = ⟨(a, b) :: t, c.maxSize⟩ := cache_eq_mk hcons rfl
    have hndt : ((((a, b) :: t) : List (K × V)).map Prod.fst).Nodup := by
      rw [← hcons]; exact hnd
    have hat : a ∉ t.map Prod.fst := (List.nodup_cons.1 hndt).1
    have hCle : c.maxSize ≤ t.length + 1 := by
      rw [hcons] at hfull
      simpa using hfull
    have hset : (c.set k v).entries = mapSet t k v := by
      conv_lhs => rw [hmk]
      exact cacheSet_full c.maxSize a b t k v hCle hat
    rw [if_pos hfull, hset, hcons]
    by_cases hka : a = k
    · subst hka
      have hknot : a ∉ t.map Prod.fst := hat
      rw [mapSet_of_not_mem v hknot, List.map_append]
      simp
    · have hkt : k ∈ t.map Prod.fst := by
        rw [hcons, List.map_cons] at hmem
        rcases List.mem_cons.1 hmem with h1 | h2
        · exact absurd h1.symm hka
        · exact h2
      rw [mapSet_keys_of_mem v hkt]
      simp [hka]
  · rw [if_neg hfull, cacheSet_not_full hfull, mapSet_keys_of_mem v hmem]

end CacheLemmas

/-- Claim C5 counterexample: the claim quantifies over every reachable state,
but from a non-empty reachable state the `C+1` insertions evict more than
just the least-recently-used entry.  Concretely: the capacity-50 message
cache reaches the one-entry state holding key `zz`; inserting 51 distinct
fresh keys `k0..k50` then evicts both `zz` (the least-recently-used) and
`k0`, so the final cache holds `k1..k50` — contradicting "evicts exactly the
least-recently-accessed key and no other". -/
theorem lru_reachable_state_counterexample :
    ((applyOps emptyMessageCache
        (.opSet "zz" dummyMessage ::
          (List.range 51).map (fun i => .opSet (natKey i) dummyMessage))).entries.map
        Prod.fst
      = ((List.range 51).map natKey).tail)
    ∧ "k0" ∉ ((applyOps emptyMessageCache
        (.opSet "zz" dummyMessage ::
          (List.range 51).map (fun i => .opSet (natKey i) dummyMessage))).entries.map
        Prod.fst)
    ∧ "zz" ∉ ((applyOps emptyMessageCache
        (.opSet "zz" dummyMessage ::
          (List.range 51).map (fun i => .opSet (natKey i) dummyMessage))).entries.map
        Prod.fst) := by
  refine ⟨by decide, by decide, by decide⟩

/-- Claim C5 amended: starting from the empty (cleared) cache of capacity
`C`, inserting `C+1` distinct keys evicts exactly the first-inserted
(least-recently-used) key and no other; and a `get` on that oldest key
before the last insertion promotes it, so the eviction falls on the
second-oldest key instead and the gotten key survives. -/
theorem lru_eviction_and_get_protection :
    ∀ (C : Nat) (k0 k1 kn : String) (v0 v1 vn : DecodedMessage)
      (rest : List (String × DecodedMessage)),
      C = rest.length + 2 →
      ((((k0, v0) :: (k1, v1) :: rest) ++ [(kn, vn)]).map Prod.fst).Nodup →
      (Cache.setList (⟨[], C⟩ : MsgCache)
          (((k0, v0) :: (k1, v1) :: rest) ++ [(kn, vn)])).entries
        = ((k1, v1) :: rest) ++ [(kn, vn)]
      ∧ ((Cache.setList (⟨[], C⟩ : MsgCache)
          ((k0, v0) :: (k1, v1) :: rest)).get k0).1 = some v0
      ∧ ((((Cache.setList (⟨[], C⟩ : MsgCache)
          ((k0, v0) :: (k1, v1) :: rest)).get k0).2).set kn vn).entries
        = rest ++ [(k0, v0), (kn, vn)] :=
  fun C k0 k1 kn v0 v1 vn rest hC hnd =>
    lru_scenario C k0 k1 kn v0 v1 vn rest hC hnd

/-- Witness for the amended C5 statement at capacity 3 with keys
`k0 k1 k2 k3`. -/
theorem lru_eviction_and_get_protection_witness :
    (Cache.setList (⟨[], 3⟩ : MsgCache)
        ((("k0", dummyMessage) :: ("k1", dummyMessage) ::
          [("k2", dummyMessage)]) ++ [("k3", dummyMessage)])).entries
      = (("k1", dummyMessage) :: [("k2", dummyMessage)]) ++ [("k3", dummyMessage)]
    ∧ ((Cache.setList (⟨[], 3⟩ : MsgCache)
        (("k0", dummyMessage) :: ("k1", dummyMessage) ::
          [("k2", dummyMessage)])).get "k0").1 = some dummyMessage
    ∧ ((((Cache.setList (⟨[], 3⟩ : MsgCache)
        (("k0", dummyMessage) :: ("k1", dummyMessage) ::
          [("k2", dummyMessage)])).get "k0").2).set "k3" dummyMessage).entries
      = [("k2", dummyMessage)] ++ [("k0", dummyMessage), ("k3", dummyMessage)] :=
  lru_eviction_and_get_protection 3 "k0" "k1" "k3" dummyMessage dummyMessage
    dummyMessage [("k2", dummyMessage)] rfl (by decide)

/-- Claim C10 counterexample: overwriting a present key can promote it.  Fill
the capacity-50 cache with `k0..k49` (so `k0` is the least-recently-used
head); a `set` on the present key `k0` then deletes it as the eviction victim
and re-inserts it at the most-recently-used end — so overwriting an existing
key does promote it in this corner case, contradicting the claim. -/
theorem overwrite_promotes_lru_counterexample :
    ((applyOps emptyMessageCache
        ((List.range 50).map (fun i => .opSet (natKey i) dummyMessage))).entries.map
        Prod.fst).head? = some "k0"
    ∧ ((applyOps emptyMessageCache
        ((List.range 50).map (fun i => .opSet (natKey i) dummyMessage))).set
          "k0" dummyMessage).entries.map Prod.fst
      = ((List.range 50).map natKey).tail ++ ["k0"] := by
  refine ⟨by decide, by decide⟩

/-- Claim C10 amended: after any operation sequence the cache never exceeds
50 entries (and its keys stay distinct); a `set` on a present key while the
cache is full still evicts the current oldest entry — which can remove a
different key and leave the cache below capacity — and overwriting a present
key keeps the key order unchanged, except when the cache is full and the key
is itself the oldest: then it is deleted and re-appended most-recently-used. -/
theorem messageCache_size_bound_and_overwrite :
    (∀ ops : List (CacheOp String DecodedMessage),
      (applyOps emptyMessageCache ops).entries.length ≤ 50
      ∧ ((applyOps emptyMessageCache ops).entries.map Prod.fst).Nodup)
    ∧ (∀ (c : MsgCache) (k : String) (v : DecodedMessage),
      c.maxSize = 50 → ((c.entries.map Prod.fst).Nodup) →
      k ∈ c.entries.map Prod.fst →
      (c.set k v).entries.map Prod.fst
        = if 50 ≤ c.entries.length then
            (c.entries.map Prod.fst).tail
              ++ (if (c.entries.map Prod.fst).head? = some k then [k] else [])
          else c.entries.map Prod.fst) := by
  constructor
  · intro ops
    obtain ⟨h1, h2, _⟩ := applyOps_preserves ops emptyMessageCache
      (by decide) (by decide) (by decide)
    exact ⟨h2, h1⟩
  · intro c k v hmax hnd hmem
    have := set_overwrite_keys c k v (by omega) hnd hmem
    rwa [hmax] at this

/-- Witness for the amended C10 statement: overwriting the present key `a` in
a two-entry (not full) cache keeps the key order `[a, b]`. -/
theorem messageCache_overwrite_witness :
    ((⟨[("a", dummyMessage), ("b", dummyMessage)], 50⟩ : MsgCache).set "a"
        dummyMessage).entries.map Prod.fst
      = if 50 ≤ ([("a", dummyMessage), ("b", dummyMessage)] :
            List (String × DecodedMessage)).length then
          (([("a", dummyMessage), ("b", dummyMessage)] :
            List (String × DecodedMessage)).map Prod.fst).tail
            ++ (if (([("a", dummyMessage), ("b", dummyMessage)] :
                List (String × DecodedMessage)).map Prod.fst).head?
                = some "a" then ["a"] else [])
        else ([("a", dummyMessage), ("b", dummyMessage)] :
            List (String × DecodedMessage)).map Prod.fst :=
  messageCache_size_bound_and_overwrite.2
    (⟨[("a", dummyMessage), ("b", dummyMessage)], 50⟩ : MsgCache) "a"
    dummyMessage rfl (by decide) (by decide)

section BatchLemmas

variable {K V : Type} [DecidableEq K]

/-- `mapM` over `Except`, unfolded one constructor at a time. -/
theorem mapM_cons_except {α β : Type} (f : α → Except String β) (a : α)
    (l : List α) :
    List.mapM f (a :: l)
      = match f a with
        | .error e => .error e
        | .ok b =>
          match List.mapM f l with
          | .error e => .error e
          | .ok bs => .ok (b :: bs) := by
  rw [List.mapM_cons]
  cases hf : f a with
  | error e => rfl
  | ok b =>
    cases hl : List.mapM f l with
    | error e => rfl
    | ok bs => rfl

/-- Keys after a `Map.set` come from the old keys or are the new key. -/
theorem mapSet_keys_subset (m : List (K × V)) (k : K) (v : V) :
    ∀ j ∈ (mapSet m k v).map Prod.fst, j = k ∨ j ∈ m.map Prod.fst := by
  intro j hj
  by_cases hk : k ∈ m.map Prod.fst
  · rw [mapSet_keys_of_mem v hk] at hj
    exact Or.inr hj
  · rw [mapSet_of_not_mem v hk, List.map_append] at hj
    rcases List.mem_append.1 hj with h | h
    · exact Or.inr h
    · exact Or.inl (by simpa using h)

/-- Keys after a `Map.delete` come from the old keys. -/
theorem mapDelete_keys_subset (m : List (K × V)) (k : K) :
    ∀ j ∈ (mapDelete m k).map Prod.fst, j ∈ m.map Prod.fst := by
  intro j hj
  rw [mapDelete_keys] at hj
  exact List.mem_of_mem_filter hj

/-- Keys after a cache `set` come from the old keys or are the new key. -/
theorem set_keys_subset (c : Cache K V) (k : K) (v : V) :
    ∀ j ∈ (c.set k v).entries.map Prod.fst,
      j = k ∨ j ∈ c.entries.map Prod.fst := by
  intro j hj
  unfold Cache.set at hj
  rcases mapSet_keys_subset _ k v j hj with h | h
  · exact Or.inl h
  · right
    by_cases hc : c.maxSize ≤ c.entries.length
    · rw [if_pos hc] at h
      cases hce : c.entries with
      | nil =>
        rw [hce] at h
        cases h
      | cons p t =>
        obtain ⟨a, b⟩ := p
        rw [hce] at h
        exact mapDelete_keys_subset ((a, b) :: t) a j h
    · rw [if_neg hc] at h
      exact h

/-- `MessageCache.get` on an absent key returns the cache unchanged. -/
theorem get_miss (c : Cache K V) (k : K)
    (h : k ∉ c.entries.map Prod.fst) : c.get k = (none, c) := by
  unfold Cache.get
  rw [(mapFind_eq_none_iff c.entries k).2 h]

end BatchLemmas

/-- A failing fresh decode makes `decodeMessage` fail, provided the message
id is not cached. -/
theorem decodeMessage_fresh_error (plat : Platform) (models : DecoderModels)
    (c : MsgCache) (m : OptimizedMessage) (e : String)
    (hfr : decodeFresh plat models m = .error e)
    (hid : ∀ i, m.id = some i → i ∉ c.entries.map Prod.fst) :
    decodeMessage plat models c m = .error e := by
  have hd : decodeData plat models (encodedOfMessage m) = .error e := by
    unfold decodeFresh at hfr
    cases hd : decodeData plat models (encodedOfMessage m) with
    | error e2 =>
      rw [hd] at hfr
      simpa [Except.map] using hfr
    | ok d =>
      rw [hd] at hfr
      simp [Except.map] at hfr
  unfold decodeMessage
  cases hmid : m.id with
  | none =>
    dsimp only
    rw [hd]
  | some i =>
    dsimp only
    rw [get_miss c i (hid i hmid)]
    dsimp only
    rw [hd]

/-- A successful fresh decode makes `decodeMessage` return the decoded
message and cache it, provided the message id is not cached. -/
theorem decodeMessage_fresh_ok (plat : Platform) (models : DecoderModels)
    (c : MsgCache) (m : OptimizedMessage) (dm : DecodedMessage)
    (hfr : decodeFresh plat models m = .ok dm)
    (hid : ∀ i, m.id = some i → i ∉ c.entries.map Prod.fst) :
    decodeMessage plat models c m = .ok (cacheAfter c m dm, dm) := by
  obtain ⟨d, hd, hdm⟩ : ∃ d, decodeData plat models (encodedOfMessage m) = .ok d
      ∧ { m with decodedContent := d.data, quality := d.quality } = dm := by
    unfold decodeFresh at hfr
    cases hd : decodeData plat models (encodedOfMessage m) with
    | error e2 =>
      rw [hd] at hfr
      simp [Except.map] at hfr
    | ok d =>
      rw [hd] at hfr
      exact ⟨d, rfl, by simpa [Except.map] using hfr⟩
  unfold decodeMessage cacheAfter
  cases hmid : m.id with
  | none =>
    dsimp only
    rw [hd]
    dsimp only
    rw [hdm]
  | some i =>
    dsimp only
    rw [get_miss c i (hid i hmid)]
    dsimp only
    rw [hd]
    dsimp only
    rw [hdm]

/-- Keys of the cache after a fresh decode was stored come from the old cache
or from the message id. -/
theorem cacheAfter_keys_subset (c : MsgCache) (m : OptimizedMessage)
    (dm : DecodedMessage) :
    ∀ j ∈ (cacheAfter c m dm).entries.map Prod.fst,
      j ∈ c.entries.map Prod.fst ∨ m.id = some j := by
  intro j hj
  unfold cacheAfter at hj
  cases hmid : m.id with
  | none =>
    rw [hmid] at hj
    exact Or.inl hj
  | some i =>
    rw [hmid] at hj
    rcases set_keys_subset c i dm j hj with h | h
    · exact Or.inr (by rw [h])
    · exact Or.inl h

/-- One unfolding step of `decodeSeq`. -/
theorem decodeSeq_cons (plat : Platform) (models : DecoderModels)
    (c : MsgCache) (m : OptimizedMessage) (rest : List OptimizedMessage) :
    decodeSeq plat models c (m :: rest)
      = match decodeMessage plat models c m with
        | .error e => .error e
        | .ok (c1, d) =>
          match decodeSeq plat models c1 rest with
          | .error e => .error e
          | .ok (c2, ds) => .ok (c2, d :: ds) := rfl

/-- Sequential decoding splits over list append. -/
theorem decodeSeq_append (plat : Platform) (models : DecoderModels) :
    ∀ (l1 l2 : List OptimizedMessage) (c : MsgCache),
      decodeSeq plat models c (l1 ++ l2)
        = match decodeSeq plat models c l1 with
          | .error e => .error e
          | .ok (c1, ds) =>
            match decodeSeq plat models c1 l2 with
            | .error e => .error e
            | .ok (c2, ds2) => .ok (c2, ds ++ ds2) := by
  intro l1
  induction l1 with
  | nil =>
    intro l2 c
    show decodeSeq plat models c l2
      = match decodeSeq plat models c l2 with
        | .error e => .error e
        | .ok (c2, ds2) => .ok (c2, [] ++ ds2)
    cases h : decodeSeq plat models c l2 with
    | error e => rfl
    | ok p =>
      obtain ⟨c2, ds2⟩ := p
      simp
  | cons m t ih =>
    intro l2 c
    rw [List.cons_append, decodeSeq_cons, decodeSeq_cons]
    cases hm : decodeMessage plat models c m with
    | error e => rfl
    | ok p =>
      obtain ⟨c1, d⟩ := p
      dsimp only
      rw [ih l2 c1]
      cases hs : decodeSeq plat models c1 t with
      | error e => rfl
      | ok q =>
        obtain ⟨c2, ds⟩ := q
        dsimp only
        cases hs2 : decodeSeq plat models c2 l2 with
        | error e => rfl
        | ok r =>
          obtain ⟨c3, ds2⟩ := r
          simp

/-- With enough fuel the batched loop is the plain sequential decode: the
batch boundaries are invisible in the result. -/
theorem decodeBatchedAux_eq (plat : Platform) (models : DecoderModels)
    (pl : Nat) :
    ∀ (fuel : Nat) (msgs : List OptimizedMessage) (c : MsgCache),
      msgs.length ≤ fuel →
      decodeBatchedAux plat models pl fuel c msgs
        = decodeSeq plat models c msgs := by
  intro fuel
  induction fuel with
  | zero =>
    intro msgs c hlen
    cases msgs with
    | nil => rfl
    | cons m rest => simp at hlen
  | succ f ih =>
    intro msgs c hlen
    cases msgs with
    | nil => rfl
    | cons m rest =>
      conv_rhs => rw [show (m :: rest) = (m :: rest).take (pl + 1)
        ++ (m :: rest).drop (pl + 1) from (List.take_append_drop _ _).symm]
      rw [decodeSeq_append]
      show (match decodeSeq plat models c ((m :: rest).take (pl + 1)) with
        | Except.error e => Except.error e
        | Except.ok (c1, ds) =>
          match decodeBatchedAux plat models pl f c1 (rest.drop pl) with
          | Except.error e => Except.error e
          | Except.ok (c2, ds2) => Except.ok (c2, ds ++ ds2)) = _
      cases hs : decodeSeq plat models c ((m :: rest).take (pl + 1)) with
      | error e => rfl
      | ok p =>
        obtain ⟨c1, ds⟩ := p
        dsimp only
        rw [ih (rest.drop pl) c1 (by
          rw [List.length_drop]
          simp only [List.length_cons] at hlen
          omega), List.drop_succ_cons]

/-- The batched loop at its call site equals the sequential decode. -/
theorem decodeBatched_eq (plat : Platform) (models : DecoderModels) (pl : Nat)
    (c : MsgCache) (msgs : List OptimizedMessage) :
    decodeBatched plat models pl c msgs = decodeSeq plat models c msgs :=
  decodeBatchedAux_eq plat models pl msgs.length msgs c (le_refl _)

/-- Sequential decoding of fresh messages with distinct ids mirrors the
per-message fresh decodes: the first failure is returned as is, and on
all-success the results arrive in order (with the final cache keys coming
from the initial cache or the processed ids). -/
theorem decodeSeq_mapM (plat : Platform) (models : DecoderModels) :
    ∀ (msgs : List OptimizedMessage) (c : MsgCache),
      (msgs.filterMap OptimizedMessage.id).Nodup →
      (∀ m ∈ msgs, ∀ i, m.id = some i → i ∉ c.entries.map Prod.fst) →
      (∀ e, msgs.mapM (decodeFresh plat models) = .error e →
        decodeSeq plat models c msgs = .error e)
      ∧ (∀ L, msgs.mapM (decodeFresh plat models) = .ok L →
        ∃ c2, decodeSeq plat models c msgs = .ok (c2, L)
          ∧ ∀ j ∈ c2.entries.map Prod.fst,
            j ∈ c.entries.map Prod.fst
              ∨ (some j) ∈ msgs.map OptimizedMessage.id) := by
  intro msgs
  induction msgs with
  | nil =>
    intro c _ _
    constructor
    · intro e he
      rw [show List.mapM (decodeFresh plat models) ([] : List OptimizedMessage)
        = .ok [] from rfl] at he
      cases he
    · intro L hL
      rw [show List.mapM (decodeFresh plat models) ([] : List OptimizedMessage)
        = .ok [] from rfl] at hL
      have : L = [] := by simpa using hL.symm
      subst this
      exact ⟨c, rfl, fun j hj => Or.inl hj⟩
  | cons m rest ih =>
    intro c hnd hdisj
    have hdisjm : ∀ i, m.id = some i → i ∉ c.entries.map Prod.fst :=
      fun i hi => hdisj m (by simp) i hi
    have hndrest : (rest.filterMap OptimizedMessage.id).Nodup := by
      cases hmid : m.id with
      | none => simpa [List.filterMap_cons, hmid] using hnd
      | some i =>
        rw [List.filterMap_cons, hmid] at hnd
        exact (List.nodup_cons.1 hnd).2
    have hdisj1 : ∀ (dm : DecodedMessage), ∀ m2 ∈ rest, ∀ j,
        m2.id = some j →
        j ∉ (cacheAfter c m dm).entries.map Prod.fst := by
      intro dm m2 hm2 j hj hjk
      rcases cacheAfter_keys_subset c m dm j hjk with h | h
      · exact hdisj m2 (by simp [hm2]) j hj h
      · -- m.id = some j and m2.id = some j with m2 ∈ rest: contradicts Nodup
        rw [List.filterMap_cons, h] at hnd
        have hjrest : j ∈ rest.filterMap OptimizedMessage.id :=
          List.mem_filterMap.2 ⟨m2, hm2, hj⟩
        exact (List.nodup_cons.1 hnd).1 hjrest
    constructor
    · intro e he
      rw [mapM_cons_except] at he
      cases hf : decodeFresh plat models m with
      | error e2 =>
        rw [hf] at he
        have he2 : e2 = e := by simpa using he
        subst he2
        rw [decodeSeq_cons, decodeMessage_fresh_error plat models c m e2 hf hdisjm]
      | ok dm =>
        rw [hf] at he
        cases hrest : rest.mapM (decodeFresh plat models) with
        | error e2 =>
          rw [hrest] at he
          have he2 : e2 = e := by simpa using he
          subst he2
          rw [decodeSeq_cons,
            decodeMessage_fresh_ok plat models c m dm hf hdisjm]
          dsimp only
          rw [(ih (cacheAfter c m dm) hndrest (hdisj1 dm)).1 e2 hrest]
        | ok bs =>
          rw [hrest] at he
          simp at he
    · intro L hL
      rw [mapM_cons_except] at hL
      cases hf : decodeFresh plat models m with
      | error e2 =>
        rw [hf] at hL
        simp at hL
      | ok dm =>
        rw [hf] at hL
        cases hrest : rest.mapM (decodeFresh plat models) with
        | error e2 =>
          rw [hrest] at hL
          simp at hL
        | ok bs =>
          rw [hrest] at hL
          have hLval : L = dm :: bs := by simpa using hL.symm
          subst hLval
          obtain ⟨c2, hseq, hsub⟩ :=
            (ih (cacheAfter c m dm) hndrest (hdisj1 dm)).2 bs hrest
          refine ⟨c2, ?_, ?_⟩
          · rw [decodeSeq_cons,
              decodeMessage_fresh_ok plat models c m dm hf hdisjm]
            dsimp only
            rw [hseq]
          · intro j hj
            rcases hsub j hj with h | h
            · rcases cacheAfter_keys_subset c m dm j h with h2 | h2
              · exact Or.inl h2
              · exact Or.inr (by simp [h2.symm])
            · exact Or.inr (by simp [h])

/-- Claim C7 counterexample: a decode failure on one message suppresses the
whole fetch.  The batch `[goodDoc, badDoc]` — where `goodDoc` decodes fine on
its own, as the second conjunct shows — is fetched as the empty list because
`badDoc` makes its `Promise.all` batch reject and the surrounding `try/catch`
returns `[]`: the good message is neither decoded-and-delivered nor
recoverable by the caller. -/
theorem decode_failure_aborts_whole_fetch :
    fetchConversationMessages platDefault noDecoderModels false
        emptyMessageCache (.ok [goodDoc, badDoc]) = []
    ∧ fetchConversationMessages platDefault noDecoderModels false
        emptyMessageCache (.ok [goodDoc]) ≠ [] := by
  refine ⟨by decide, by decide⟩

/-- Claim C7 amended: a fetch is all-or-nothing.  For store documents with
distinct ids, starting from the empty cache: if every message decodes, all
of them are delivered (in reversed, i.e. chronological, order); if any
single message fails to decode, the whole fetch returns the empty list —
the other messages of the batch are not delivered. -/
theorem fetch_all_or_nothing :
    ∀ (plat : Platform) (models : DecoderModels) (lp : Bool)
      (docs : List RawDoc),
      (docs.map RawDoc.id).Nodup →
      (∀ e, (docs.map rawToMessage).mapM (decodeFresh plat models)
          = .error e →
        fetchConversationMessages plat models lp emptyMessageCache
          (.ok docs) = [])
      ∧ (∀ L, (docs.map rawToMessage).mapM (decodeFresh plat models)
          = .ok L →
        fetchConversationMessages plat models lp emptyMessageCache
          (.ok docs) = L.reverse) := by
  intro plat models lp docs hnd
  have hids : (docs.map rawToMessage).filterMap OptimizedMessage.id
      = docs.map RawDoc.id := by
    clear hnd
    induction docs with
    | nil => rfl
    | cons d t ihd =>
      simp only [List.map_cons, List.filterMap_cons]
      rw [show (rawToMessage d).id = some d.id from rfl, ihd]
  have hnd2 : ((docs.map rawToMessage).filterMap OptimizedMessage.id).Nodup := by
    rw [hids]; exact hnd
  have hdisj : ∀ m ∈ docs.map rawToMessage, ∀ i, m.id = some i →
      i ∉ emptyMessageCache.entries.map Prod.fst := by
    intro m _ i _ hi
    simp [emptyMessageCache] at hi
  obtain ⟨herr, hok⟩ := decodeSeq_mapM plat models (docs.map rawToMessage)
    emptyMessageCache hnd2 hdisj
  constructor
  · intro e he
    unfold fetchConversationMessages
    dsimp only
    rw [decodeBatched_eq, herr e he]
  · intro L hL
    obtain ⟨c2, hseq, _⟩ := hok L hL
    unfold fetchConversationMessages
    dsimp only
    rw [decodeBatched_eq, hseq]

/-- Witness for the amended C7 statement: the singleton batch `[goodDoc]`
decodes entirely, and the fetch delivers exactly its decoded message. -/
theorem fetch_all_or_nothing_witness :
    fetchConversationMessages platDefault noDecoderModels false
        emptyMessageCache (.ok [goodDoc]) = [goodDecoded].reverse :=
  (fetch_all_or_nothing platDefault noDecoderModels false [goodDoc]
    (by decide)).2 [goodDecoded] (by decide)

end Paradox
